import Mathlib

/-!
Shallow embedding of the personal to-do-list manager in `VOC/task.py`.

Python strings are modelled as lists of characters (`Str`), machine-level
unicode case folding restricted to ASCII as in the source's data.  Stateful
methods of `TodoApp` become functions `Store → ... → Bool × Store` returning
the Python method's boolean result together with the post-state.  Console
output (`print`) has no effect on the store and is not modelled.  The JSON
file is modelled by `FileContent`/`SaveDoc`: a field read with `dict.get`
becomes an `Option`, and a record on which `Task.from_dict` would raise
(missing `title` key) is one whose `title` field is `none`.
-/

namespace VOC

/-- Python strings, modelled as lists of characters. -/
abbrev Str := List Char

/-- Characters removed by Python's `str.strip()` (ASCII whitespace). -/
def pyIsSpace (c : Char) : Bool :=
  c == ' ' || c == '\t' || c == '\n' || c == '\r' || c == '\x0b' || c == '\x0c'

/-- Python `str.strip()`: drop whitespace from both ends. -/
def pyStrip (s : Str) : Str :=
  ((s.dropWhile pyIsSpace).reverse.dropWhile pyIsSpace).reverse

/-- Python `str.lower()` on one character (ASCII range, as used by the data). -/
def pyToLower (c : Char) : Char :=
  if 'A' ≤ c ∧ c ≤ 'Z' then Char.ofNat (c.toNat + 32) else c

/-- Python `str.lower()`. -/
def pyLower (s : Str) : Str := s.map pyToLower

/-- Python `hay.startswith(pat)` on character lists. -/
def strStartsWith : Str → Str → Bool
  | _, [] => true
  | [], _ :: _ => false
  | h :: hs, p :: ps => h == p && strStartsWith hs ps

/-- Python substring test `pat in hay` on character lists. -/
def strContains : Str → Str → Bool
  | [], pat => strStartsWith [] pat
  | h :: hs, pat => strStartsWith (h :: hs) pat || strContains hs pat

/-- One task, with the seven attributes of `Task` in `task.py`. -/
structure Task where
  title : Str
  description : Str
  category : Str
  completed : Bool
  created_date : Str
  task_id : Option Int
  completed_date : Option Str
deriving DecidableEq

/-- `Task.__init__`: `created_date or now` keeps the argument only when it
is truthy (not `None` and not the empty string); `completed_date` starts
out `None`. -/
def Task.init (now title description category : Str) (completed : Bool)
    (created_date : Option Str) (task_id : Option Int) : Task :=
  { title := title, description := description, category := category,
    completed := completed,
    created_date :=
      match created_date with
      | none => now
      | some s => if s = [] then now else s,
    task_id := task_id, completed_date := none }

/-- `Task.mark_completed`: set the flag and stamp the completion date. -/
def Task.markCompleted (now : Str) (t : Task) : Task :=
  { t with completed := true, completed_date := some now }

/-- `Task.mark_incomplete`: clear the flag and the completion date. -/
def Task.markIncomplete (t : Task) : Task :=
  { t with completed := false, completed_date := none }

/-- A serialized task record; each field read via `dict.get` is an
`Option` (`none` = key absent or JSON null). -/
structure TaskData where
  title : Option Str
  description : Option Str
  category : Option Str
  completed : Option Bool
  created_date : Option Str
  task_id : Option Int
  completed_date : Option Str
deriving DecidableEq

/-- `Task.to_dict`: all seven fields are emitted. -/
def Task.to_dict (t : Task) : TaskData :=
  { title := some t.title, description := some t.description,
    category := some t.category, completed := some t.completed,
    created_date := some t.created_date, task_id := t.task_id,
    completed_date := t.completed_date }

/-- `Task.from_dict`: `data['title']` raises `KeyError` when the key is
absent (`none` result); the other fields fall back to their defaults. -/
def Task.from_dict (now : Str) (d : TaskData) : Option Task :=
  match d.title with
  | none => none
  | some ttl =>
    some { (Task.init now ttl (d.description.getD []) (d.category.getD ("General".data))
             (d.completed.getD false) d.created_date d.task_id) with
           completed_date := d.completed_date }

/-- The store: `TodoApp`'s `tasks`, `next_id` and `categories` fields.  The
Python category set is modelled as a duplicate-free list with
membership-guarded insertion. -/
structure Store where
  tasks : List Task
  next_id : Int
  categories : List Str
deriving DecidableEq

/-- The default category set seeded by `TodoApp.__init__`. -/
def defaultCategories : List Str :=
  ["Work".data, "Personal".data, "Urgent".data, "General".data,
   "Health".data, "Learning".data]

/-- The state set up by `TodoApp.__init__` before `load_tasks` runs:
no tasks, `next_id = 1`, default categories. -/
def initStore : Store :=
  { tasks := [], next_id := 1, categories := defaultCategories }

/-- The persisted JSON document: `data.get('tasks', [])` and
`data.get('next_id', 1)` make both top-level fields optional. -/
structure SaveDoc where
  tasks : Option (List TaskData)
  next_id : Option Int
deriving DecidableEq

/-- `TodoApp.save_tasks`: serialize every task plus `next_id`. -/
def save_tasks (s : Store) : SaveDoc :=
  { tasks := some (s.tasks.map Task.to_dict), next_id := some s.next_id }

/-- What `load_tasks` finds when it opens the backing file: the file may be
absent, unreadable, hold invalid JSON, or hold a parsed document. -/
inductive FileContent where
  | absent
  | unreadable
  | invalidJson
  | doc (d : SaveDoc)
deriving DecidableEq

/-- The backward-compatibility loop at the end of `load_tasks`: walk the
loaded tasks in order and give each task without an id the current
`next_id`, incrementing it. -/
def backfillIds : List Task → Int → List Task × Int
  | [], n => ([], n)
  | t :: ts, n =>
    match t.task_id with
    | some _ => let r := backfillIds ts n; (t :: r.1, r.2)
    | none => let r := backfillIds ts (n + 1); ({ t with task_id := some n } :: r.1, r.2)

/-- Left-to-right fallible map, the effect of the list comprehension
`[Task.from_dict(d) for d in ...]`: the first raising element aborts the
whole construction. -/
def mapMOption {α β : Type} (f : α → Option β) : List α → Option (List β)
  | [] => some []
  | x :: xs =>
    match f x with
    | none => none
    | some b =>
      match mapMOption f xs with
      | none => none
      | some bs => some (b :: bs)

/-- `TodoApp.load_tasks`.  An exception while opening, parsing, or building
the comprehension `[Task.from_dict(d) for d in data.get('tasks', [])]`
is caught before `self.tasks` or `self.next_id` is assigned, so the store
is left untouched and `False` is returned. -/
def load_tasks (now : Str) (content : FileContent) (s : Store) : Bool × Store :=
  match content with
  | .absent => (true, s)
  | .unreadable => (false, s)
  | .invalidJson => (false, s)
  | .doc d =>
    match mapMOption (Task.from_dict now) (d.tasks.getD []) with
    | none => (false, s)
    | some ts =>
      let nid := d.next_id.getD 1
      let r := backfillIds ts nid
      (true, { s with tasks := r.1, next_id := r.2 })

/-- `TodoApp.find_task_by_id`: first task whose `task_id` equals the
argument (Python `None == task_id` is false). -/
def find_task_by_id (s : Store) (task_id : Int) : Option Task :=
  s.tasks.find? (fun t => t.task_id == some task_id)

/-- `TodoApp.add_task`: reject a title that strips to empty, otherwise
append a new task with id `next_id`, bump `next_id`, and register the raw
category string if it is unknown. -/
def add_task (now : Str) (s : Store) (title description category : Str) : Bool × Store :=
  if pyStrip title = [] then (false, s)
  else
    let task := Task.init now (pyStrip title) (pyStrip description) category
      false none (some s.next_id)
    let s1 : Store := { s with tasks := s.tasks ++ [task], next_id := s.next_id + 1 }
    let s2 : Store :=
      if s1.categories.contains category then s1
      else { s1 with categories := s1.categories ++ [category] }
    (true, s2)

/-- Replace the first element satisfying `p` by its image under `f`
(mutation of the object returned by `find_task_by_id`). -/
def updateFirst {α : Type} (p : α → Bool) (f : α → α) : List α → List α
  | [] => []
  | x :: xs => if p x then f x :: xs else x :: updateFirst p f xs

/-- `TodoApp.mark_task_completed`: not found reports failure; an already
completed task is left untouched (no re-stamp) but still reports success. -/
def mark_task_completed (now : Str) (s : Store) (task_id : Int) : Bool × Store :=
  match find_task_by_id s task_id with
  | some t =>
    if t.completed then (true, s)
    else (true, { s with
      tasks := updateFirst (fun u => u.task_id == some task_id) (Task.markCompleted now) s.tasks })
  | none => (false, s)

/-- `TodoApp.mark_task_incomplete`: mirror image of
`mark_task_completed`. -/
def mark_task_incomplete (s : Store) (task_id : Int) : Bool × Store :=
  match find_task_by_id s task_id with
  | some t =>
    if t.completed then
      (true, { s with
        tasks := updateFirst (fun u => u.task_id == some task_id) Task.markIncomplete s.tasks })
    else (true, s)
  | none => (false, s)

/-- `TodoApp.delete_task`: `self.tasks.remove(task)` removes exactly the
object found, i.e. the first task with the matching id. -/
def delete_task (s : Store) (task_id : Int) : Bool × Store :=
  match find_task_by_id s task_id with
  | some _ =>
    (true, { s with tasks := s.tasks.eraseP (fun u => u.task_id == some task_id) })
  | none => (false, s)

/-- The field updates `edit_task` performs on the task it found.  The
title and category are applied only when non-empty after stripping; the
description guard `new_description or new_description == ""` is translated
literally (it always holds). -/
def editApply (newTitle newDescription newCategory : Str) (t : Task) : Task :=
  let t1 := if newTitle ≠ [] then { t with title := newTitle } else t
  let t2 :=
    if newDescription ≠ [] ∨ newDescription = [] then
      { t1 with description := newDescription }
    else t1
  let t3 := if newCategory ≠ [] then { t2 with category := newCategory } else t2
  t3

/-- `TodoApp.edit_task` with the three strings read from `input(...)`.
A freshly used category is registered inside the `if new_category:`
branch. -/
def edit_task (s : Store) (task_id : Int) (titleIn descIn catIn : Str) : Bool × Store :=
  match find_task_by_id s task_id with
  | none => (false, s)
  | some _ =>
    let newTitle := pyStrip titleIn
    let newDescription := pyStrip descIn
    let newCategory := pyStrip catIn
    let cats :=
      if newCategory ≠ [] ∧ ¬ s.categories.contains newCategory then
        s.categories ++ [newCategory]
      else s.categories
    (true, { s with
      tasks := updateFirst (fun u => u.task_id == some task_id)
        (editApply newTitle newDescription newCategory) s.tasks,
      categories := cats })

/-- `TodoApp.search_tasks`: lowercase and strip the query, then keep, in
store order, the tasks one of whose three text fields contains it. -/
def search_tasks (s : Store) (query : Str) : List Task :=
  let q := pyStrip (pyLower query)
  s.tasks.filter (fun t =>
    strContains (pyLower t.title) q ||
    strContains (pyLower t.description) q ||
    strContains (pyLower t.category) q)

/-- Rank of a Python bool under `<` inside a sort key tuple. -/
def boolRank (b : Bool) : Nat := if b then 1 else 0

/-- The integer id of a stored task.  Every task placed in the store by
`add_task` or `load_tasks` carries an id; the default `0` only makes the
function total. -/
def taskIdVal (t : Task) : Int := t.task_id.getD 0

/-- The comparison induced by the sort key `(x.completed, x.task_id)` in
`view_tasks`. -/
def viewKeyLe (a b : Task) : Bool :=
  decide (boolRank a.completed < boolRank b.completed) ||
    (a.completed == b.completed && decide (taskIdVal a ≤ taskIdVal b))

/-- Append a key to the key list when it is new (a Python dict gains a key
the first time it is seen). -/
def addKey (ks : List Str) (c : Str) : List Str :=
  if ks.contains c then ks else ks ++ [c]

/-- The keys of the `categories` dict built by `view_tasks`, in order of
first occurrence. -/
def categoryKeys (l : List Task) : List Str :=
  l.foldl (fun ks t => addKey ks t.category) []

/-- The grouping built by the `categories` dict in `view_tasks`: keys in
order of first occurrence, each key holding, in store order, exactly the
tasks with that category. -/
def groupByCategory (l : List Task) : List (Str × List Task) :=
  (categoryKeys l).map (fun c => (c, l.filter (fun u => u.category == c)))

/-- The comparison as a relation, for the stable sort. -/
def ViewKeyRel (a b : Task) : Prop := viewKeyLe a b = true

instance : DecidableRel ViewKeyRel := fun a b => instDecidableEqBool (viewKeyLe a b) true

/-- The tasks `view_tasks` selects before grouping: filter by category
(a falsy filter, `None` or `""`, keeps everything), then drop completed
tasks when asked. -/
def selectedTasks (s : Store) (category_filter : Option Str) (show_completed : Bool) :
    List Task :=
  let filtered1 :=
    match category_filter with
    | none => s.tasks
    | some cf =>
      if cf = [] then s.tasks
      else s.tasks.filter (fun t => pyLower t.category == pyLower cf)
  if show_completed then filtered1 else filtered1.filter (fun t => !t.completed)

/-- `TodoApp.view_tasks`, returning the displayed grouping instead of
printing it: select, group by category, and sort each group with Python's
stable `sorted` on the key `(completed, task_id)` (modelled by a stable
insertion sort). -/
def view_tasks (s : Store) (category_filter : Option Str) (show_completed : Bool) :
    List (Str × List Task) :=
  (groupByCategory (selectedTasks s category_filter show_completed)).map
    (fun g => (g.1, List.insertionSort ViewKeyRel g.2))

/-- The mutating operations a store can be driven with (each carrying the
strings the Python code would read from the clock or the terminal). -/
inductive Op where
  | add (now title description category : Str)
  | markCompleted (now : Str) (task_id : Int)
  | markIncomplete (task_id : Int)
  | delete (task_id : Int)
  | edit (task_id : Int) (titleIn descIn catIn : Str)
deriving DecidableEq

/-- Apply one operation, keeping only the post-state. -/
def applyOp (s : Store) : Op → Store
  | .add now t d c => (add_task now s t d c).2
  | .markCompleted now i => (mark_task_completed now s i).2
  | .markIncomplete i => (mark_task_incomplete s i).2
  | .delete i => (delete_task s i).2
  | .edit i a b c => (edit_task s i a b c).2

/-- Run a sequence of operations. -/
def runOps : List Op → Store → Store
  | [], s => s
  | op :: rest, s => runOps rest (applyOp s op)

/-- The ids one operation hands out: a successful `add_task` assigns the
current `next_id`, everything else assigns none. -/
def stepAdds (op : Op) (s : Store) : List Int :=
  match op with
  | .add _ t _ _ => if pyStrip t = [] then [] else [s.next_id]
  | _ => []

/-- The ids handed out by the successful `add_task` calls of a run, in
call order. -/
def addedIds : List Op → Store → List Int
  | [], _ => []
  | op :: rest, s => stepAdds op s ++ addedIds rest (applyOp s op)

/-- The ids of the stored tasks, in store order. -/
def storeIds (s : Store) : List Int := s.tasks.filterMap Task.task_id

/-! Concrete fixtures used by witnesses and counterexamples. -/

/-- A concrete stored task with id 1 and a non-empty description. -/
def demoTask1 : Task :=
  { title := "a".data, description := "x".data, category := "General".data,
    completed := false, created_date := "d".data, task_id := some 1,
    completed_date := none }

/-- A store holding exactly `demoTask1`. -/
def demoStore : Store := { initStore with tasks := [demoTask1], next_id := 2 }

/-- A concrete run: two adds and one completion. -/
def demoOps : List Op :=
  [Op.add ("d1".data) ("Buy milk".data) [] ("General".data),
   Op.add ("d2".data) ("Pay rent".data) ("due monthly".data) ("Urgent".data),
   Op.markCompleted ("d3".data) 1]

/-! Helper lemmas about the string model. -/

/-- `strStartsWith` agrees with list-prefix. -/
theorem strStartsWith_iff (hay pat : Str) : strStartsWith hay pat = true ↔ pat <+: hay := by
  induction hay generalizing pat with
  | nil =>
    cases pat with
    | nil => simp [strStartsWith]
    | cons p ps => simp [strStartsWith]
  | cons h hs ih =>
    cases pat with
    | nil => simp [strStartsWith, List.nil_prefix]
    | cons p ps =>
      rw [show strStartsWith (h :: hs) (p :: ps) = (h == p && strStartsWith hs ps) from rfl]
      simp only [Bool.and_eq_true, beq_iff_eq, List.cons_prefix_cons, ih]
      exact and_congr eq_comm Iff.rfl

/-- `strContains` agrees with the contiguous-sublist relation. -/
theorem strContains_iff (hay pat : Str) : strContains hay pat = true ↔ pat <:+: hay := by
  induction hay with
  | nil =>
    simp [strContains, strStartsWith_iff, List.infix_nil, List.prefix_nil]
  | cons h hs ih =>
    simp [strContains, strStartsWith_iff, ih, List.infix_cons_iff]

/-- Every string contains the empty string. -/
theorem strContains_nil (hay : Str) : strContains hay [] = true := by
  cases hay <;> simp [strContains, strStartsWith]

/-- Lowercasing leaves whitespace characters unchanged. -/
theorem pyToLower_space (c : Char) (h : pyIsSpace c = true) : pyToLower c = c := by
  simp only [pyIsSpace, Bool.or_eq_true, beq_iff_eq] at h
  rcases h with ((((rfl | rfl) | rfl) | rfl) | rfl) | rfl <;> decide

/-- Stripping an all-whitespace string yields the empty string. -/
theorem pyStrip_all_space (l : Str) (h : ∀ c ∈ l, pyIsSpace c = true) : pyStrip l = [] := by
  unfold pyStrip
  rw [List.dropWhile_eq_nil_iff.mpr h]
  rfl

/-! Helper lemmas about updateFirst. -/

/-- `find?` after `updateFirst` with the same predicate returns the image
of the old find, provided `f` keeps the predicate true. -/
theorem find?_updateFirst {α : Type} (p : α → Bool) (f : α → α) (l : List α)
    (hf : ∀ x, p x = true → p (f x) = true) :
    (updateFirst p f l).find? p = (l.find? p).map f := by
  induction l with
  | nil => rfl
  | cons x xs ih =>
    cases hx : p x with
    | false => simp [updateFirst, hx, List.find?_cons, ih]
    | true => simp [updateFirst, hx, List.find?_cons, hf x hx]

/-- Every element after `updateFirst` is an old element or the image of
one. -/
theorem mem_updateFirst {α : Type} (p : α → Bool) (f : α → α) (l : List α) :
    ∀ y ∈ updateFirst p f l, y ∈ l ∨ ∃ x ∈ l, y = f x := by
  induction l with
  | nil => simp [updateFirst]
  | cons x xs ih =>
    intro y hy
    cases hx : p x with
    | true =>
      simp [updateFirst, hx] at hy
      rcases hy with rfl | hy
      · exact Or.inr ⟨x, List.mem_cons_self x xs, rfl⟩
      · exact Or.inl (List.mem_cons_of_mem x hy)
    | false =>
      simp [updateFirst, hx] at hy
      rcases hy with rfl | hy
      · exact Or.inl (List.mem_cons_self y xs)
      · rcases ih y hy with h | ⟨x0, hx0, rfl⟩
        · exact Or.inl (List.mem_cons_of_mem x h)
        · exact Or.inr ⟨x0, List.mem_cons_of_mem x hx0, rfl⟩

/-- `updateFirst` leaves any projection untouched by `f` unchanged. -/
theorem filterMap_updateFirst {α β : Type} (p : α → Bool) (f : α → α) (g : α → Option β)
    (l : List α) (hg : ∀ x, g (f x) = g x) :
    (updateFirst p f l).filterMap g = l.filterMap g := by
  induction l with
  | nil => rfl
  | cons x xs ih =>
    cases hx : p x <;> simp [updateFirst, hx, List.filterMap_cons, hg, ih]

/-- C4.  For every store state and every title that is empty or
whitespace-only after trimming, `add_task` returns failure and leaves the
entire store (task list, `next_id`, and known categories) unchanged. -/
theorem C4_add_empty_title_rejected (now : Str) (s : Store) (title description category : Str)
    (h : pyStrip title = []) :
    add_task now s title description category = (false, s) := by
  simp [add_task, h]

/-- Witness for C4 at a whitespace-only title. -/
theorem C4_add_empty_title_rejected_witness :
    add_task [] initStore ("  ".data) [] [] = (false, initStore) :=
  C4_add_empty_title_rejected [] initStore ("  ".data) [] [] (by decide)

/-- C10.  For every store state, `search_tasks` with an empty or
whitespace-only query returns every task in store order, because the query
is trimmed before matching and the empty string is contained in every
field. -/
theorem C10_blank_query_returns_all (s : Store) (q : Str)
    (h : ∀ c ∈ q, pyIsSpace c = true) :
    search_tasks s q = s.tasks := by
  have hl : ∀ c ∈ pyLower q, pyIsSpace c = true := by
    intro c hc
    rcases List.mem_map.mp hc with ⟨c0, hc0, rfl⟩
    rw [pyToLower_space c0 (h c0 hc0)]
    exact h c0 hc0
  have hq : pyStrip (pyLower q) = [] := pyStrip_all_space _ hl
  simp [search_tasks, hq, strContains_nil]

/-- Witness for C10 at the query consisting of one space. -/
theorem C10_blank_query_returns_all_witness :
    search_tasks demoStore (" ".data) = demoStore.tasks :=
  C10_blank_query_returns_all demoStore (" ".data) (by decide)

/-- C7.  For every store state and id, `mark_task_completed` and
`mark_task_incomplete` succeed exactly when a task with that id exists;
a task already in the requested state is left untouched (so its
`completed_date` is not re-stamped) while the call still succeeds; a
missing id yields failure and an unchanged store. -/
theorem C7_mark_ops_success_iff_found (now : Str) (s : Store) (i : Int) :
    ((mark_task_completed now s i).1 = true ↔ ∃ t ∈ s.tasks, t.task_id = some i) ∧
    ((mark_task_incomplete s i).1 = true ↔ ∃ t ∈ s.tasks, t.task_id = some i) ∧
    (∀ t, find_task_by_id s i = some t → t.completed = true →
      mark_task_completed now s i = (true, s)) ∧
    (∀ t, find_task_by_id s i = some t → t.completed = false →
      mark_task_incomplete s i = (true, s)) ∧
    (find_task_by_id s i = none →
      mark_task_completed now s i = (false, s) ∧ mark_task_incomplete s i = (false, s)) := by
  have hiff : (find_task_by_id s i).isSome = true ↔ ∃ t ∈ s.tasks, t.task_id = some i := by
    simp [find_task_by_id, List.find?_isSome]
  cases hf : find_task_by_id s i with
  | none =>
    rw [hf] at hiff
    simp only [Option.isSome_none, Bool.false_eq_true, false_iff] at hiff
    refine ⟨?_, ?_, ?_, ?_, ?_⟩
    · simp [mark_task_completed, hf, hiff]
    · simp [mark_task_incomplete, hf, hiff]
    · intro t ht; exact Option.noConfusion ht
    · intro t ht; exact Option.noConfusion ht
    · intro _
      exact ⟨by simp [mark_task_completed, hf], by simp [mark_task_incomplete, hf]⟩
  | some t =>
    have hex : ∃ u ∈ s.tasks, u.task_id = some i := hiff.mp (by rw [hf]; rfl)
    refine ⟨?_, ?_, ?_, ?_, ?_⟩
    · cases hc : t.completed <;> simp [mark_task_completed, hf, hc, hex]
    · cases hc : t.completed <;> simp [mark_task_incomplete, hf, hc, hex]
    · intro u hu hcu
      injection hu with hu
      subst hu
      simp [mark_task_completed, hf, hcu]
    · intro u hu hcu
      injection hu with hu
      subst hu
      simp [mark_task_incomplete, hf, hcu]
    · intro hn; exact Option.noConfusion hn

/-- Witness for C7: an already-incomplete task is a successful no-op. -/
theorem C7_mark_ops_success_iff_found_witness :
    mark_task_incomplete demoStore 1 = (true, demoStore) :=
  (C7_mark_ops_success_iff_found [] demoStore 1).2.2.2.1 demoTask1 (by decide) (by decide)

/-- C8.  For every store and every id present in it, marking completed and
then incomplete leaves that task with `completed = false` and
`completed_date` absent.  (The model's read operations are pure functions,
so intervening reads cannot alter this.) -/
theorem C8_complete_then_incomplete (now : Str) (s : Store) (i : Int) (t : Task)
    (h : find_task_by_id s i = some t) :
    ∃ t2,
      find_task_by_id ((mark_task_incomplete ((mark_task_completed now s i).2) i).2) i = some t2 ∧
      t2.completed = false ∧ t2.completed_date = none := by
  have hpres : ∀ (f : Task → Task), (∀ x, (f x).task_id = x.task_id) →
      ∀ x, (x.task_id == some i) = true → ((f x).task_id == some i) = true := by
    intro f hfid x hx
    rw [hfid]
    exact hx
  cases hc : t.completed with
  | true =>
    have h1 : mark_task_completed now s i = (true, s) := by
      simp [mark_task_completed, h, hc]
    rw [h1]
    have h2 : mark_task_incomplete s i =
        (true, { s with
          tasks := updateFirst (fun u => u.task_id == some i) Task.markIncomplete s.tasks }) := by
      simp [mark_task_incomplete, h, hc]
    rw [h2]
    refine ⟨Task.markIncomplete t, ?_, rfl, rfl⟩
    show (updateFirst (fun u => u.task_id == some i) Task.markIncomplete s.tasks).find?
      (fun u => u.task_id == some i) = some (Task.markIncomplete t)
    rw [find?_updateFirst _ _ _ (hpres Task.markIncomplete (fun _ => rfl))]
    rw [show s.tasks.find? (fun u => u.task_id == some i) = some t from h]
    rfl
  | false =>
    have h1 : (mark_task_completed now s i).2 =
        { s with
          tasks := updateFirst (fun u => u.task_id == some i) (Task.markCompleted now) s.tasks } := by
      simp [mark_task_completed, h, hc]
    have hfind1 : find_task_by_id ((mark_task_completed now s i).2) i =
        some (Task.markCompleted now t) := by
      rw [h1]
      show (updateFirst (fun u => u.task_id == some i) (Task.markCompleted now) s.tasks).find?
        (fun u => u.task_id == some i) = some (Task.markCompleted now t)
      rw [find?_updateFirst _ _ _ (hpres (Task.markCompleted now) (fun _ => rfl))]
      rw [show s.tasks.find? (fun u => u.task_id == some i) = some t from h]
      rfl
    have h2 : mark_task_incomplete ((mark_task_completed now s i).2) i =
        (true, { (mark_task_completed now s i).2 with
          tasks := updateFirst (fun u => u.task_id == some i) Task.markIncomplete
            ((mark_task_completed now s i).2).tasks }) := by
      simp [mark_task_incomplete, hfind1, Task.markCompleted]
    rw [h2]
    refine ⟨Task.markIncomplete (Task.markCompleted now t), ?_, rfl, rfl⟩
    show (updateFirst (fun u => u.task_id == some i) Task.markIncomplete
        ((mark_task_completed now s i).2).tasks).find? (fun u => u.task_id == some i) =
      some (Task.markIncomplete (Task.markCompleted now t))
    rw [find?_updateFirst _ _ _ (hpres Task.markIncomplete (fun _ => rfl))]
    rw [show ((mark_task_completed now s i).2).tasks.find? (fun u => u.task_id == some i) =
      some (Task.markCompleted now t) from hfind1]
    rfl

/-- Witness for C8 on the one-task demo store. -/
theorem C8_complete_then_incomplete_witness :
    ∃ t2,
      find_task_by_id ((mark_task_incomplete ((mark_task_completed ("n".data) demoStore 1).2) 1).2) 1 =
        some t2 ∧ t2.completed = false ∧ t2.completed_date = none :=
  C8_complete_then_incomplete ("n".data) demoStore 1 demoTask1 (by decide)

/-! Edit semantics.  The guard `new_description or new_description == ""`
in `edit_task` is a tautology, so the (stripped) description input is
always applied, while title and category are applied only when
non-empty. -/

/-- The fields `editApply` never touches. -/
theorem editApply_fields (a b c : Str) (t : Task) :
    (editApply a b c t).task_id = t.task_id ∧
    (editApply a b c t).created_date = t.created_date ∧
    (editApply a b c t).completed = t.completed ∧
    (editApply a b c t).completed_date = t.completed_date := by
  simp only [editApply]
  split <;> split <;> split <;> exact ⟨rfl, rfl, rfl, rfl⟩

/-- Closed form of `editApply`: the description is always overwritten. -/
theorem editApply_eq (a b c : Str) (t : Task) :
    editApply a b c t =
      { t with
        title := if a = [] then t.title else a,
        description := b,
        category := if c = [] then t.category else c } := by
  have hb : ¬b = [] ∨ b = [] := (em (b = [])).symm
  simp only [editApply, ne_eq]
  by_cases ha : a = [] <;> by_cases hc : c = [] <;> simp [ha, hc, hb]

/-- C3, counterexample.  In the code the only way to supply no value for a
field of `edit_task` is a blank input line, and an edit of the demo store
with all three inputs blank succeeds yet clears the non-empty description
of task 1, so it does not leave all fields unchanged. -/
theorem C3_counterexample :
    (edit_task demoStore 1 [] [] []).1 = true ∧
    (find_task_by_id ((edit_task demoStore 1 [] [] []).2) 1).map Task.description = some [] ∧
    demoTask1.description ≠ [] ∧
    (edit_task demoStore 1 [] [] []).2 ≠ demoStore := by decide

/-- C3, amended.  For a missing id, `edit_task` fails and changes nothing.
For an existing id it succeeds and applies the stripped title and category
inputs only when they are non-empty, but applies the stripped description
input unconditionally — a blank description input therefore clears the
field to `""` rather than leaving it unchanged — while the other four
fields of the task are untouched. -/
theorem C3_edit_semantics (s : Store) (i : Int) (tIn dIn cIn : Str) :
    (find_task_by_id s i = none → edit_task s i tIn dIn cIn = (false, s)) ∧
    (∀ t0, find_task_by_id s i = some t0 →
      (edit_task s i tIn dIn cIn).1 = true ∧
      find_task_by_id ((edit_task s i tIn dIn cIn).2) i =
        some { t0 with
          title := if pyStrip tIn = [] then t0.title else pyStrip tIn,
          description := pyStrip dIn,
          category := if pyStrip cIn = [] then t0.category else pyStrip cIn }) := by
  constructor
  · intro hn
    simp [edit_task, hn]
  · intro t0 h
    refine ⟨by simp [edit_task, h], ?_⟩
    have h2 : ((edit_task s i tIn dIn cIn).2).tasks =
        updateFirst (fun u => u.task_id == some i)
          (editApply (pyStrip tIn) (pyStrip dIn) (pyStrip cIn)) s.tasks := by
      simp [edit_task, h]
    show ((edit_task s i tIn dIn cIn).2).tasks.find? (fun u => u.task_id == some i) = _
    rw [h2,
      find?_updateFirst _ _ _
        (fun x hx => by rw [(editApply_fields _ _ _ x).1]; exact hx),
      show s.tasks.find? (fun u => u.task_id == some i) = some t0 from h]
    simp [editApply_eq]

/-- Witness for the amended C3: editing a missing id changes nothing. -/
theorem C3_edit_semantics_witness :
    edit_task demoStore 99 [] [] [] = (false, demoStore) :=
  (C3_edit_semantics demoStore 99 [] [] []).1 (by decide)

/-! Load-failure behaviour. -/

/-- The failure cases of `load_tasks` covered by the claim: unreadable
file, invalid JSON, or a parsed document holding a record without the
required `title` key (on which `Task.from_dict` raises). -/
def loadFails (content : FileContent) : Prop :=
  match content with
  | .absent => False
  | .unreadable => True
  | .invalidJson => True
  | .doc d => ∃ r ∈ d.tasks.getD [], r.title = none

/-- A serialized record missing every key, in particular `title`. -/
def badRecord : TaskData :=
  { title := none, description := none, category := none, completed := none,
    created_date := none, task_id := none, completed_date := none }

/-- A parsed document holding one malformed record. -/
def badDoc : SaveDoc := { tasks := some [badRecord], next_id := none }

/-- Mapping over a list with one failing element fails. -/
theorem mapMOption_eq_none {α β : Type} (f : α → Option β) (l : List α)
    (h : ∃ a ∈ l, f a = none) : mapMOption f l = none := by
  induction l with
  | nil => simp at h
  | cons x xs ih =>
    rcases h with ⟨a, ha, hfa⟩
    rcases List.mem_cons.mp ha with rfl | ha
    · simp [mapMOption, hfa]
    · cases hfx : f x with
      | none => simp [mapMOption, hfx]
      | some b => simp [mapMOption, hfx, ih ⟨a, ha, hfa⟩]

/-- C9.  On any failing backing-file content (unreadable file, invalid
JSON, malformed task record) `load_tasks` returns failure — modelled as a
total function, so nothing is raised to the caller — and leaves the
freshly-initialized store in its default empty state (`tasks = []`,
`next_id = 1`). -/
theorem C9_load_failure_leaves_default (now : Str) (content : FileContent)
    (h : loadFails content) :
    load_tasks now content initStore = (false, initStore) := by
  cases content with
  | absent => exact h.elim
  | unreadable => rfl
  | invalidJson => rfl
  | doc d =>
    have hm : mapMOption (Task.from_dict now) (d.tasks.getD []) = none := by
      apply mapMOption_eq_none
      rcases h with ⟨r, hr, hrt⟩
      exact ⟨r, hr, by simp [Task.from_dict, hrt]⟩
    simp [load_tasks, hm]

/-- Witness for C9 at a document holding one malformed record. -/
theorem C9_load_failure_leaves_default_witness :
    load_tasks [] (FileContent.doc badDoc) initStore = (false, initStore) :=
  C9_load_failure_leaves_default [] (FileContent.doc badDoc)
    ⟨badRecord, by decide, rfl⟩

/-- C5, counterexample.  `search_tasks` strips the query before matching:
on the demo store the query `" a"` returns task 1 although no field of
task 1 contains `" a"` as a case-insensitive substring, so the claim as
stated (matching the un-trimmed query) is false. -/
theorem C5_counterexample :
    search_tasks demoStore (" a".data) = [demoTask1] ∧
    ¬ (pyLower (" a".data) <:+: pyLower demoTask1.title) ∧
    ¬ (pyLower (" a".data) <:+: pyLower demoTask1.description) ∧
    ¬ (pyLower (" a".data) <:+: pyLower demoTask1.category) := by decide

/-- C5, amended.  `search_tasks` returns, in store order (a sublist of the
task list), exactly those tasks whose title, description or category
contains the whitespace-trimmed query as a case-insensitive substring; the
store itself is not touched (the embedding is a pure function of it). -/
theorem C5_search_semantics (s : Store) (q : Str) :
    (search_tasks s q).Sublist s.tasks ∧
    ∀ t, t ∈ search_tasks s q ↔
      t ∈ s.tasks ∧
        (pyStrip (pyLower q) <:+: pyLower t.title ∨
         pyStrip (pyLower q) <:+: pyLower t.description ∨
         pyStrip (pyLower q) <:+: pyLower t.category) := by
  have hdef : search_tasks s q = s.tasks.filter (fun t =>
      strContains (pyLower t.title) (pyStrip (pyLower q)) ||
      strContains (pyLower t.description) (pyStrip (pyLower q)) ||
      strContains (pyLower t.category) (pyStrip (pyLower q))) := rfl
  refine ⟨?_, ?_⟩
  · rw [hdef]
    exact List.filter_sublist _
  · intro t
    rw [hdef]
    simp [List.mem_filter, Bool.or_eq_true, strContains_iff, or_assoc]

/-- Witness for the amended C5: searching never reorders the store. -/
theorem C5_search_semantics_witness :
    (search_tasks demoStore []).Sublist demoStore.tasks :=
  (C5_search_semantics demoStore []).1

/-! Per-operation facts feeding the id invariant. -/

/-- Tasks surviving an `updateFirst` keep their id and creation date when
the update function does. -/
theorem task_provenance_updateFirst (p : Task → Bool) (f : Task → Task) (l : List Task)
    (hf : ∀ x, (f x).task_id = x.task_id ∧ (f x).created_date = x.created_date) :
    ∀ y ∈ updateFirst p f l, ∃ x ∈ l, y.task_id = x.task_id ∧ y.created_date = x.created_date := by
  intro y hy
  rcases mem_updateFirst p f l y hy with h | ⟨x, hx, rfl⟩
  · exact ⟨y, h, rfl, rfl⟩
  · exact ⟨x, hx, (hf x).1, (hf x).2⟩

/-- Reduction equations for `applyOp` on each operation constructor. -/
theorem applyOp_add (s : Store) (now title d c : Str) :
    applyOp s (Op.add now title d c) = (add_task now s title d c).2 := rfl

/-- Reduction of `applyOp` on `markCompleted`. -/
theorem applyOp_markCompleted (s : Store) (now : Str) (i : Int) :
    applyOp s (Op.markCompleted now i) = (mark_task_completed now s i).2 := rfl

/-- Reduction of `applyOp` on `markIncomplete`. -/
theorem applyOp_markIncomplete (s : Store) (i : Int) :
    applyOp s (Op.markIncomplete i) = (mark_task_incomplete s i).2 := rfl

/-- Reduction of `applyOp` on `delete`. -/
theorem applyOp_delete (s : Store) (i : Int) :
    applyOp s (Op.delete i) = (delete_task s i).2 := rfl

/-- Reduction of `applyOp` on `edit`. -/
theorem applyOp_edit (s : Store) (i : Int) (a b c : Str) :
    applyOp s (Op.edit i a b c) = (edit_task s i a b c).2 := rfl

/-- One step of any operation: every resulting task either keeps the id
and creation date of a previous task, or is the task a successful add just
created (id `next_id`, creation date the add's clock string); and the id
list either shrinks (keeping order) with `next_id` untouched, or gains
exactly `next_id` at the end with `next_id` bumped. -/
theorem step_facts (s : Store) (op : Op) :
    (∀ y ∈ (applyOp s op).tasks,
      (∃ x ∈ s.tasks, y.task_id = x.task_id ∧ y.created_date = x.created_date) ∨
      (y.task_id = some s.next_id ∧
        ∃ now title d c, op = Op.add now title d c ∧ y.created_date = now)) ∧
    (((applyOp s op).next_id = s.next_id ∧
        (storeIds (applyOp s op)).Sublist (storeIds s) ∧ stepAdds op s = []) ∨
     ((applyOp s op).next_id = s.next_id + 1 ∧
        storeIds (applyOp s op) = storeIds s ++ [s.next_id] ∧
        stepAdds op s = [s.next_id])) := by
  cases op with
  | add now title d c =>
    rw [applyOp_add]
    by_cases h : pyStrip title = []
    · have hs : (add_task now s title d c).2 = s := by
        simp [add_task, h]
      rw [hs]
      exact ⟨fun y hy => Or.inl ⟨y, hy, rfl, rfl⟩,
        Or.inl ⟨rfl, List.Sublist.refl _, by simp [stepAdds, h]⟩⟩
    · have htasks : ((add_task now s title d c).2).tasks =
          s.tasks ++ [Task.init now (pyStrip title) (pyStrip d) c false none (some s.next_id)] := by
        unfold add_task
        rw [if_neg h]
        dsimp only
        split <;> rfl
      have hnext : ((add_task now s title d c).2).next_id = s.next_id + 1 := by
        unfold add_task
        rw [if_neg h]
        dsimp only
        split <;> rfl
      constructor
      · intro y hy
        rw [htasks] at hy
        rcases List.mem_append.mp hy with hy | hy
        · exact Or.inl ⟨y, hy, rfl, rfl⟩
        · rcases List.mem_singleton.mp hy with rfl
          exact Or.inr ⟨rfl, now, title, d, c, rfl, rfl⟩
      · right
        refine ⟨hnext, ?_, by simp [stepAdds, h]⟩
        show ((add_task now s title d c).2).tasks.filterMap Task.task_id = _
        rw [htasks, List.filterMap_append]
        rfl
  | markCompleted now i =>
    rw [applyOp_markCompleted]
    constructor
    · intro y hy
      left
      unfold mark_task_completed at hy
      cases hf : find_task_by_id s i with
      | none => rw [hf] at hy; exact ⟨y, hy, rfl, rfl⟩
      | some t =>
        rw [hf] at hy
        dsimp only at hy
        by_cases hc : t.completed = true
        · rw [if_pos hc] at hy; exact ⟨y, hy, rfl, rfl⟩
        · rw [if_neg hc] at hy
          exact task_provenance_updateFirst (fun u => u.task_id == some i)
            (Task.markCompleted now) s.tasks (fun _ => ⟨rfl, rfl⟩) y hy
    · left
      have hids : storeIds ((mark_task_completed now s i).2) = storeIds s := by
        unfold mark_task_completed storeIds
        cases hf : find_task_by_id s i with
        | none => rfl
        | some t =>
          dsimp only
          by_cases hc : t.completed = true
          · rw [if_pos hc]
          · rw [if_neg hc]
            exact filterMap_updateFirst _ _ _ _ (fun _ => rfl)
      have hnext : ((mark_task_completed now s i).2).next_id = s.next_id := by
        unfold mark_task_completed
        cases hf : find_task_by_id s i with
        | none => rfl
        | some t =>
          dsimp only
          by_cases hc : t.completed = true
          · rw [if_pos hc]
          · rw [if_neg hc]
      exact ⟨hnext, hids ▸ List.Sublist.refl _, rfl⟩
  | markIncomplete i =>
    rw [applyOp_markIncomplete]
    constructor
    · intro y hy
      left
      unfold mark_task_incomplete at hy
      cases hf : find_task_by_id s i with
      | none => rw [hf] at hy; exact ⟨y, hy, rfl, rfl⟩
      | some t =>
        rw [hf] at hy
        dsimp only at hy
        by_cases hc : t.completed = true
        · rw [if_pos hc] at hy
          exact task_provenance_updateFirst (fun u => u.task_id == some i)
            Task.markIncomplete s.tasks (fun _ => ⟨rfl, rfl⟩) y hy
        · rw [if_neg hc] at hy; exact ⟨y, hy, rfl, rfl⟩
    · left
      have hids : storeIds ((mark_task_incomplete s i).2) = storeIds s := by
        unfold mark_task_incomplete storeIds
        cases hf : find_task_by_id s i with
        | none => rfl
        | some t =>
          dsimp only
          by_cases hc : t.completed = true
          · rw [if_pos hc]
            exact filterMap_updateFirst _ _ _ _ (fun _ => rfl)
          · rw [if_neg hc]
      have hnext : ((mark_task_incomplete s i).2).next_id = s.next_id := by
        unfold mark_task_incomplete
        cases hf : find_task_by_id s i with
        | none => rfl
        | some t =>
          dsimp only
          by_cases hc : t.completed = true
          · rw [if_pos hc]
          · rw [if_neg hc]
      exact ⟨hnext, hids ▸ List.Sublist.refl _, rfl⟩
  | delete i =>
    rw [applyOp_delete]
    constructor
    · intro y hy
      left
      unfold delete_task at hy
      cases hf : find_task_by_id s i with
      | none => rw [hf] at hy; exact ⟨y, hy, rfl, rfl⟩
      | some t =>
        rw [hf] at hy
        dsimp only at hy
        exact ⟨y, (List.eraseP_sublist s.tasks).subset hy, rfl, rfl⟩
    · left
      have hnext : ((delete_task s i).2).next_id = s.next_id := by
        unfold delete_task
        cases hf : find_task_by_id s i with
        | none => rfl
        | some t => rfl
      refine ⟨hnext, ?_, rfl⟩
      unfold delete_task
      cases hf : find_task_by_id s i with
      | none => exact List.Sublist.refl _
      | some t =>
        dsimp only
        exact (List.eraseP_sublist s.tasks).filterMap Task.task_id
  | edit i a b c =>
    rw [applyOp_edit]
    constructor
    · intro y hy
      left
      unfold edit_task at hy
      cases hf : find_task_by_id s i with
      | none => rw [hf] at hy; exact ⟨y, hy, rfl, rfl⟩
      | some t =>
        rw [hf] at hy
        dsimp only at hy
        exact task_provenance_updateFirst _ _ _
          (fun x => ⟨(editApply_fields _ _ _ x).1, (editApply_fields _ _ _ x).2.1⟩) y hy
    · left
      have hnext : ((edit_task s i a b c).2).next_id = s.next_id := by
        unfold edit_task
        cases hf : find_task_by_id s i with
        | none => rfl
        | some t => rfl
      refine ⟨hnext, ?_, rfl⟩
      have hids : storeIds ((edit_task s i a b c).2) = storeIds s := by
        unfold edit_task storeIds
        cases hf : find_task_by_id s i with
        | none => rfl
        | some t =>
          dsimp only
          exact filterMap_updateFirst _ _ _ _ (fun x => (editApply_fields _ _ _ x).1)
      exact hids ▸ List.Sublist.refl _

/-- Running any operation sequence from a store satisfying the id
invariant preserves it: ids stay present, strictly increasing in store
order and below `next_id`; `next_id` never decreases; the surviving ids
are a sublist of the prior ids followed by the newly assigned ones, which
are themselves strictly increasing and at least the starting `next_id`. -/
theorem runOps_facts (ops : List Op) : ∀ (s : Store),
    (∀ t ∈ s.tasks, t.task_id.isSome = true) →
    List.Pairwise (· < ·) (storeIds s) →
    (∀ i ∈ storeIds s, i < s.next_id) →
    (∀ t ∈ (runOps ops s).tasks, t.task_id.isSome = true) ∧
    List.Pairwise (· < ·) (storeIds (runOps ops s)) ∧
    (∀ i ∈ storeIds (runOps ops s), i < (runOps ops s).next_id) ∧
    s.next_id ≤ (runOps ops s).next_id ∧
    (storeIds (runOps ops s)).Sublist (storeIds s ++ addedIds ops s) ∧
    List.Pairwise (· < ·) (addedIds ops s) ∧
    (∀ i ∈ addedIds ops s, s.next_id ≤ i) := by
  induction ops with
  | nil =>
    intro s h1 h2 h3
    exact ⟨h1, h2, h3, le_refl _, by simp [runOps, addedIds], List.Pairwise.nil,
      by simp [addedIds]⟩
  | cons op rest ih =>
    intro s h1 h2 h3
    have hrun : runOps (op :: rest) s = runOps rest (applyOp s op) := rfl
    have htr : addedIds (op :: rest) s = stepAdds op s ++ addedIds rest (applyOp s op) := rfl
    obtain ⟨hmem, hstep⟩ := step_facts s op
    have h1' : ∀ t ∈ (applyOp s op).tasks, t.task_id.isSome = true := by
      intro t ht
      rcases hmem t ht with ⟨x, hx, hid, _⟩ | ⟨hid, _⟩
      · rw [hid]; exact h1 x hx
      · rw [hid]; rfl
    rw [hrun, htr]
    rcases hstep with ⟨hn, hsub, hadds⟩ | ⟨hn, hids, hadds⟩
    · have h2' : List.Pairwise (· < ·) (storeIds (applyOp s op)) :=
        List.Pairwise.sublist hsub h2
      have h3' : ∀ i ∈ storeIds (applyOp s op), i < (applyOp s op).next_id := by
        intro i hi
        rw [hn]
        exact h3 i (hsub.subset hi)
      obtain ⟨g1, g2, g3, g4, g5, g6, g7⟩ := ih (applyOp s op) h1' h2' h3'
      rw [hadds, List.nil_append]
      refine ⟨g1, g2, g3, ?_, ?_, g6, ?_⟩
      · exact le_trans (le_of_eq hn.symm) g4
      · exact g5.trans (List.Sublist.append_right hsub _)
      · intro i hi
        exact le_trans (le_of_eq hn.symm) (g7 i hi)
    · have h2' : List.Pairwise (· < ·) (storeIds (applyOp s op)) := by
        rw [hids]
        refine List.pairwise_append.mpr ⟨h2, List.pairwise_singleton _ _, ?_⟩
        intro a ha b hb
        rw [List.mem_singleton.mp hb]
        exact h3 a ha
      have h3' : ∀ i ∈ storeIds (applyOp s op), i < (applyOp s op).next_id := by
        intro i hi
        rw [hids] at hi
        rw [hn]
        rcases List.mem_append.mp hi with hi | hi
        · exact lt_trans (h3 i hi) (lt_add_one _)
        · rw [List.mem_singleton.mp hi]
          exact lt_add_one _
      obtain ⟨g1, g2, g3, g4, g5, g6, g7⟩ := ih (applyOp s op) h1' h2' h3'
      rw [hadds]
      have hsnext : s.next_id ≤ (applyOp s op).next_id := by
        rw [hn]
        exact (lt_add_one _).le
      refine ⟨g1, g2, g3, le_trans hsnext g4, ?_, ?_, ?_⟩
      · rw [hids, List.append_assoc] at g5
        exact g5
      · show List.Pairwise (· < ·) (s.next_id :: addedIds rest (applyOp s op))
        refine List.pairwise_cons.mpr ⟨?_, g6⟩
        intro b hb
        have := g7 b hb
        rw [hn] at this
        omega
      · intro i hi
        rcases List.mem_cons.mp hi with rfl | hi
        · exact le_refl _
        · have := g7 i hi
          rw [hn] at this
          omega

/-- C1.  For every operation sequence on a freshly-initialized empty
store, every stored task carries an id, the ids are pairwise strictly
increasing in store order (hence unique), each is strictly below
`next_id`, and the surviving ids form a sublist of the strictly increasing
list of ids assigned by the successful `add_task` calls in call order — so
an id is never reused or renumbered after a delete. -/
theorem C1_id_invariant (ops : List Op) :
    (∀ t ∈ (runOps ops initStore).tasks, t.task_id.isSome = true) ∧
    List.Pairwise (· < ·) (storeIds (runOps ops initStore)) ∧
    (∀ i ∈ storeIds (runOps ops initStore), i < (runOps ops initStore).next_id) ∧
    (storeIds (runOps ops initStore)).Sublist (addedIds ops initStore) ∧
    List.Pairwise (· < ·) (addedIds ops initStore) := by
  obtain ⟨g1, g2, g3, _, g5, g6, _⟩ :=
    runOps_facts ops initStore (by simp [initStore]) (by simp [storeIds, initStore])
      (by simp [storeIds, initStore])
  have hnil : storeIds initStore = [] := rfl
  rw [hnil, List.nil_append] at g5
  exact ⟨g1, g2, g3, g5, g6⟩

/-- Witness for C1 on a concrete run with two adds. -/
theorem C1_id_invariant_witness :
    List.Pairwise (· < ·) (storeIds (runOps demoOps initStore)) :=
  (C1_id_invariant demoOps).2.1

/-- An operation's clock string is usable as a creation date: the `or now`
fallback in `Task.__init__` only needs the add operations' clock strings
to be non-empty (real `strftime` output never is). -/
def addNowOk (op : Op) : Bool :=
  match op with
  | .add now _ _ _ => !(now == [])
  | _ => true

/-- Runs whose adds carry non-empty clock strings only ever store tasks
with non-empty creation dates. -/
theorem runOps_created (ops : List Op) : ∀ (s : Store),
    (∀ op ∈ ops, addNowOk op = true) →
    (∀ t ∈ s.tasks, t.created_date ≠ []) →
    ∀ t ∈ (runOps ops s).tasks, t.created_date ≠ [] := by
  induction ops with
  | nil => intro s _ hs; exact hs
  | cons op rest ih =>
    intro s hops hs
    have hrun : runOps (op :: rest) s = runOps rest (applyOp s op) := rfl
    rw [hrun]
    apply ih (applyOp s op) (fun o ho => hops o (List.mem_cons_of_mem _ ho))
    intro t ht
    rcases (step_facts s op).1 t ht with ⟨x, hx, _, hcd⟩ | ⟨_, now, title, d, c, hop, hcd⟩
    · rw [hcd]; exact hs x hx
    · rw [hcd]
      have hok := hops op (List.mem_cons_self _ _)
      rw [hop] at hok
      simpa [addNowOk] using hok

/-- Serializing and deserializing one task is the identity as long as its
creation date is non-empty (the `or now` fallback then keeps it). -/
theorem from_to_dict (now2 : Str) (t : Task) (h : t.created_date ≠ []) :
    Task.from_dict now2 (Task.to_dict t) = some t := by
  unfold Task.from_dict Task.to_dict Task.init
  dsimp only [Option.getD]
  rw [if_neg h]

/-- Serializing and deserializing a task list is the identity under the
same proviso. -/
theorem mapMOption_from_to (now2 : Str) (l : List Task)
    (h : ∀ t ∈ l, t.created_date ≠ []) :
    mapMOption (Task.from_dict now2) (l.map Task.to_dict) = some l := by
  induction l with
  | nil => rfl
  | cons t ts ih =>
    have ht := from_to_dict now2 t (h t (List.mem_cons_self _ _))
    simp [mapMOption, ht, ih (fun u hu => h u (List.mem_cons_of_mem _ hu))]

/-- The backward-compatibility backfill is the identity when every task
already carries an id. -/
theorem backfillIds_of_allSome (l : List Task) (n : Int)
    (h : ∀ t ∈ l, t.task_id.isSome = true) :
    backfillIds l n = (l, n) := by
  induction l with
  | nil => rfl
  | cons t ts ih =>
    have ht := h t (List.mem_cons_self _ _)
    cases hid : t.task_id with
    | none => rw [hid] at ht; exact absurd ht (by simp)
    | some k =>
      simp [backfillIds, hid, ih (fun u hu => h u (List.mem_cons_of_mem _ hu))]

/-- C2.  For every store built by a sequence of add/edit/mark/delete
operations (whose adds carry non-empty clock strings, as `strftime` output
always is), saving the full state and loading the document into a fresh
store reconstructs exactly the same task list — all seven fields of every
task, `completed_date` included — and the same `next_id`. -/
theorem C2_save_load_roundtrip (ops : List Op) (now2 : Str)
    (hops : ∀ op ∈ ops, addNowOk op = true) :
    load_tasks now2 (FileContent.doc (save_tasks (runOps ops initStore))) initStore =
      (true, { initStore with
        tasks := (runOps ops initStore).tasks,
        next_id := (runOps ops initStore).next_id }) := by
  have hsome : ∀ t ∈ (runOps ops initStore).tasks, t.task_id.isSome = true :=
    (runOps_facts ops initStore (by simp [initStore]) (by simp [storeIds, initStore])
      (by simp [storeIds, initStore])).1
  have hcd : ∀ t ∈ (runOps ops initStore).tasks, t.created_date ≠ [] :=
    runOps_created ops initStore hops (by simp [initStore])
  unfold load_tasks save_tasks
  dsimp only
  rw [show (some ((runOps ops initStore).tasks.map Task.to_dict)).getD [] =
    (runOps ops initStore).tasks.map Task.to_dict from rfl]
  rw [mapMOption_from_to now2 _ hcd]
  dsimp only
  rw [show (some (runOps ops initStore).next_id).getD 1 = (runOps ops initStore).next_id from rfl]
  rw [backfillIds_of_allSome _ _ hsome]

/-- Witness for C2 on the concrete demo run. -/
theorem C2_save_load_roundtrip_witness :
    load_tasks [] (FileContent.doc (save_tasks (runOps demoOps initStore))) initStore =
      (true, { initStore with
        tasks := (runOps demoOps initStore).tasks,
        next_id := (runOps demoOps initStore).next_id }) :=
  C2_save_load_roundtrip demoOps [] (by decide)

/-- The view comparison is transitive. -/
theorem viewKeyLe_trans (a b c : Task) (hab : viewKeyLe a b = true)
    (hbc : viewKeyLe b c = true) : viewKeyLe a c = true := by
  cases ha : a.completed <;> cases hb : b.completed <;> cases hc2 : c.completed <;>
    simp_all [viewKeyLe, boolRank] <;> omega

/-- The view comparison is total. -/
theorem viewKeyLe_total (a b : Task) : viewKeyLe a b = true ∨ viewKeyLe b a = true := by
  cases ha : a.completed <;> cases hb : b.completed <;>
    simp_all [viewKeyLe, boolRank] <;> omega

instance : IsTrans Task ViewKeyRel := ⟨viewKeyLe_trans⟩

instance : IsTotal Task ViewKeyRel := ⟨viewKeyLe_total⟩

/-- groupByCategory: every group holds exactly the input tasks of its
category, in input order. -/
theorem mem_groupByCategory {l : List Task} {p : Str × List Task}
    (hp : p ∈ groupByCategory l) :
    p.2 = l.filter (fun u => u.category == p.1) := by
  unfold groupByCategory at hp
  rcases List.mem_map.mp hp with ⟨c, _, rfl⟩
  rfl

/-- A key is in `addKey ks c` whenever it was in `ks`. -/
theorem mem_addKey_mono (ks : List Str) (c x : Str) (h : x ∈ ks) : x ∈ addKey ks c := by
  unfold addKey
  split
  · exact h
  · exact List.mem_append.mpr (Or.inl h)

/-- `addKey` makes its argument a key. -/
theorem mem_addKey_self (ks : List Str) (c : Str) : c ∈ addKey ks c := by
  unfold addKey
  by_cases h : ks.contains c = true
  · rw [if_pos h]
    exact by simpa using h
  · rw [if_neg h]
    exact List.mem_append.mpr (Or.inr (List.mem_singleton.mpr rfl))

/-- Keys already collected survive the rest of the fold. -/
theorem foldl_addKey_mono (l : List Task) : ∀ (ks : List Str) (x : Str), x ∈ ks →
    x ∈ l.foldl (fun ks t => addKey ks t.category) ks := by
  induction l with
  | nil => intro ks x h; exact h
  | cons t ts ih =>
    intro ks x h
    exact ih _ x (mem_addKey_mono ks t.category x h)

/-- Every task's category ends up among the dict keys. -/
theorem category_mem_keys_aux (l : List Task) : ∀ (ks : List Str) (t : Task), t ∈ l →
    t.category ∈ l.foldl (fun ks t => addKey ks t.category) ks := by
  induction l with
  | nil => intro _ t h; exact absurd h (List.not_mem_nil t)
  | cons u us ih =>
    intro ks t h
    rcases List.mem_cons.mp h with rfl | h
    · exact foldl_addKey_mono us _ _ (mem_addKey_self ks t.category)
    · exact ih _ t h

/-- Every input task appears in some group. -/
theorem groupByCategory_covers (l : List Task) (t : Task) (h : t ∈ l) :
    ∃ p ∈ groupByCategory l, t ∈ p.2 := by
  refine ⟨(t.category, l.filter (fun u => u.category == t.category)), ?_, ?_⟩
  · unfold groupByCategory categoryKeys
    exact List.mem_map.mpr ⟨t.category, category_mem_keys_aux l [] t h, rfl⟩
  · exact List.mem_filter.mpr ⟨h, by simp⟩

/-- What `view_tasks` selects: a task passes the (truthy) category filter
by case-insensitive exact equality and, when completed tasks are hidden,
by being incomplete. -/
theorem mem_selectedTasks (s : Store) (cf : Option Str) (sc : Bool) (t : Task) :
    t ∈ selectedTasks s cf sc ↔
      t ∈ s.tasks ∧
      (∀ c0, cf = some c0 → c0 ≠ [] → pyLower t.category = pyLower c0) ∧
      (sc = false → t.completed = false) := by
  unfold selectedTasks
  cases cf with
  | none => cases sc <;> simp [List.mem_filter]
  | some c0 =>
    by_cases hc : c0 = []
    · subst hc
      cases sc <;> simp [List.mem_filter]
    · cases sc <;> simp [List.mem_filter, hc, beq_iff_eq, and_assoc]
      tauto

/-- C6.  For every store state, category filter and completed-inclusion
flag, `view_tasks` groups the selected tasks by category: each displayed
group is sorted by the key `(completed, task_id)` (incomplete before
completed, ties by id), holds only tasks of its category, and is a
permutation of the selected tasks of that category (which are in store
order); every selected task appears in a group; and selection matches the
category filter by case-insensitive exact equality and drops completed
tasks exactly when asked.  The embedding is a pure function of the store,
mirroring that the Python method only reads it. -/
theorem C6_view_grouping (s : Store) (cf : Option Str) (sc : Bool) :
    (∀ p ∈ view_tasks s cf sc, List.Pairwise ViewKeyRel p.2) ∧
    (∀ p ∈ view_tasks s cf sc, ∀ t ∈ p.2, t.category = p.1) ∧
    (∀ p ∈ view_tasks s cf sc,
      p.2.Perm ((selectedTasks s cf sc).filter (fun u => u.category == p.1))) ∧
    (∀ t ∈ selectedTasks s cf sc, ∃ p ∈ view_tasks s cf sc, t ∈ p.2) ∧
    (∀ t, t ∈ selectedTasks s cf sc ↔
      t ∈ s.tasks ∧
      (∀ c0, cf = some c0 → c0 ≠ [] → pyLower t.category = pyLower c0) ∧
      (sc = false → t.completed = false)) := by
  have hview : view_tasks s cf sc =
      (groupByCategory (selectedTasks s cf sc)).map
        (fun g => (g.1, List.insertionSort ViewKeyRel g.2)) := rfl
  refine ⟨?_, ?_, ?_, ?_, mem_selectedTasks s cf sc⟩
  · intro p hp
    rw [hview] at hp
    rcases List.mem_map.mp hp with ⟨g, hg, rfl⟩
    exact List.sorted_insertionSort ViewKeyRel g.2
  · intro p hp t ht
    rw [hview] at hp
    rcases List.mem_map.mp hp with ⟨g, hg, rfl⟩
    have ht2 : t ∈ g.2 := (List.perm_insertionSort ViewKeyRel g.2).subset ht
    rw [mem_groupByCategory hg] at ht2
    exact beq_iff_eq.mp (List.mem_filter.mp ht2).2
  · intro p hp
    rw [hview] at hp
    rcases List.mem_map.mp hp with ⟨g, hg, rfl⟩
    have hfil := mem_groupByCategory hg
    exact (List.perm_insertionSort ViewKeyRel g.2).trans (hfil ▸ List.Perm.refl _)
  · intro t ht
    rcases groupByCategory_covers (selectedTasks s cf sc) t ht with ⟨g, hg, htg⟩
    refine ⟨(g.1, List.insertionSort ViewKeyRel g.2), ?_, ?_⟩
    · rw [hview]
      exact List.mem_map.mpr ⟨g, hg, rfl⟩
    · exact (List.perm_insertionSort ViewKeyRel g.2).symm.subset htg

/-- Witness for C6: the demo store's single group is sorted. -/
theorem C6_view_grouping_witness :
    List.Pairwise ViewKeyRel [demoTask1] :=
  (C6_view_grouping demoStore none true).1 (("General".data), [demoTask1]) (by decide)

end VOC
